import Mathlib

/-!
Verification development for the edge featurizer of a synchronous-grammar
parse forest (src/misc/featurizer.py).  The featurizer turns each rule
instance ("edge") of a forest over a source sentence into a sparse feature
map.  The featurizer module itself is embedded faithfully below; the small
helper modules it imports (lib/libitg symbol types, misc/spans word
queries, misc/features container) are not part of the sources and are
modelled from the specification where marked.

Numeric values are modelled over `ℚ`; the external `np.log`/`np.sqrt`
routines are carried as arbitrary function fields of the featurizer state, so
every statement about the log-probability features holds for an arbitrary
interpretation of those routines, mirroring the fact that the source only
fixes the expression structure, not the numerics.
-/

namespace Fz

/-- A feature map models Python's `defaultdict(float)`: an insertion-ordered
association list from feature-name strings to rational values, with default
value `0`. -/
abbrev FeatureMap := List (String × ℚ)

/-- Value lookup with the defaultdict's default `0` (reading through
`dd_get` never mutates; mutation-on-read is `dd_touch`). -/
def dd_get : FeatureMap → String → ℚ
  | [], _ => 0
  | (k0, v0) :: t, k => if k0 = k then v0 else dd_get t k

/-- Key presence. -/
def dd_mem (m : FeatureMap) (k : String) : Prop := ∃ p ∈ m, p.1 = k

instance (m : FeatureMap) (k : String) : Decidable (dd_mem m k) := by
  unfold dd_mem; infer_instance

/-- `fmap[k] = v`: update in place if present, else append (Python dict
insertion order). -/
def dd_set : FeatureMap → String → ℚ → FeatureMap
  | [], k, v => [(k, v)]
  | (k0, v0) :: t, k, v => if k0 = k then (k0, v) :: t else (k0, v0) :: dd_set t k v

/-- `fmap[k] += v` on a `defaultdict(float)`. -/
def dd_add (m : FeatureMap) (k : String) (v : ℚ) : FeatureMap :=
  dd_set m k (dd_get m k + v)

/-- A bare read `fmap[k]` on a `defaultdict(float)`: inserts the key with
value `0` when absent (this is exactly what the expression statement on
line 175 of the source does). -/
def dd_touch : FeatureMap → String → FeatureMap
  | [], k => [(k, 0)]
  | (k0, v0) :: t, k => if k0 = k then (k0, v0) :: t else (k0, v0) :: dd_touch t k

/-- Modelled from the spec: `lib/libitg` symbol classes are not in the
sources.  A grammar symbol is a `Terminal` (a word) or a `Nonterminal`
(a label from the closed set "X", "D", "I", "T", plus the start label). -/
inductive Sym where
  | term : String → Sym
  | nt : String → Sym
deriving DecidableEq, Repr

/-- Modelled from the spec: a rule item is either a `Span` — a symbol paired
with a (start, end) range of source-lattice positions; after parsing both
terminal and nonterminal occurrences are span-wrapped, so `obj()` yields a
triple — or the bare (un-spanned) start nonterminal.  `lib/libitg` is not in
the sources. -/
inductive Item where
  | span : Sym → Nat → Nat → Item
  | start : String → Item
deriving DecidableEq, Repr

/-- Modelled from the spec: `is_terminal()` on a span-wrapped item reports
the terminal-ness of the wrapped symbol; the bare start symbol is not a
terminal. -/
def Item.is_terminal : Item → Bool
  | .span (.term _) _ _ => true
  | _ => false

/-- A rule (hyperedge): an lhs item and an rhs sequence of one or two items. -/
structure Rule where
  lhs : Item
  rhs : List Item
deriving DecidableEq, Repr

/-- Modelled from the spec: a best derivation `Dxy` carries its rules; the
designated terminal rule is by convention the last one (`Dxy._rules[-1]`).
`misc` derivation classes are not in the sources. -/
structure Derivation where
  rules : List Rule
deriving DecidableEq, Repr

/-- Modelled from the spec: an embedding provider exposes a dimensionality,
a per-word dense vector (total lookup), and a per-word integer cluster id.
The embedding classes are not in the sources. -/
structure Emb where
  dim : Nat
  vec : String → Nat → ℚ
  cluster : String → Nat

/-- The featurizer state (`Featurizer.__init__`): the IBM1 probability
table, the two embedding tables, and the three feature-family switches.
`np_log`/`np_sqrt` model the external `np.log`/`np.sqrt` routines as
arbitrary numeric functions. -/
structure Featurizer where
  ibm1_probs : String × String → ℚ
  embeddings_ch : Emb
  embeddings_en : Emb
  word_class_features : Bool
  dense_word_emb_features : Bool
  sparse_word_features : Bool
  np_log : ℚ → ℚ
  np_sqrt : ℚ → ℚ

/-- Modelled from the spec: `libitg.make_fsa` builds the linear source
lattice from the raw source sentence; the featurizer only queries words in
spans of it, so the lattice is modelled by the word list itself. -/
def make_fsa (x : List String) : List String := x

/-- Modelled from the spec: `misc.spans.get_phrase` (`wordsInSpan`) returns
the ordered word sequence covered by lattice positions `[s, e)`; empty for
`s = e`.  `misc/spans.py` is not in the sources. -/
def get_phrase (src_fsa : List String) (s e : Nat) : List String :=
  (src_fsa.drop s).take (e - s)

/-- Modelled from the spec: `misc.spans.get_source_word` resolves the single
source word covered by a unit span.  `misc/spans.py` is not in the sources. -/
def get_source_word (src_fsa : List String) (s e : Nat) : String :=
  (get_phrase src_fsa s e).headD ""

/-- Modelled from the spec: `misc.spans.get_target_word` resolves the target
word carried by the rhs terminal symbol.  `misc/spans.py` is not in the
sources. -/
def get_target_word : Sym → String
  | .term w => w
  | .nt l => l

/-- The smoothing constant `1e-10` used with every alignment probability. -/
def eps : ℚ := 1 / 10 ^ 10

/-- `_featurize_start_rule` (line 127): increments `top` by 1. -/
def featurize_start_rule (fmap : FeatureMap) : FeatureMap :=
  dd_add fmap "top" 1

/-- `_featurize_upgrade_rule` (lines 57-67): destructures both `obj()`
triples (failure is `none`), then on an "X" lhs tests the rhs span's label:
"T" → `type:upgrade_t`, "D" → `type:upgrade_d`; the source's second,
unreachable re-test of "T" is dead code and cannot be represented as a
separate branch of the if-chain. -/
def featurize_upgrade_rule (rule : Rule) (fmap : FeatureMap) : Option FeatureMap :=
  match rule.lhs, rule.rhs with
  | .span lhs_symbol _ _, .span rhs_symbol _ _ :: _ =>
    some (if lhs_symbol = Sym.nt "X" then
            if rhs_symbol = Sym.nt "T" then dd_add fmap "type:upgrade_t" 1
            else if rhs_symbol = Sym.nt "D" then dd_add fmap "type:upgrade_d" 1
            else if rhs_symbol = Sym.nt "T" then dd_add fmap "type:upgrade_t" 1
            else fmap
          else fmap)
  | _, _ => none

/-- The per-dimension assignment loops (`for i in range(d): fmap[pfx % i] =
vals[i]`) shared by the dense-embedding features and the inside/outside
phrase features. -/
def emb_dim_fold (pfx : String) (vals : Nat → ℚ) (d : Nat) (fmap : FeatureMap) :
    FeatureMap :=
  (List.range d).foldl (fun m i => dd_set m (pfx ++ toString i) (vals i)) fmap

/-- The skip-gram loops of `_featurize_binary_rule` (lines 112-114): for
every pair of positions `i < j` in the rhs phrase, increment
`skip-gram:<w_i>/<w_j>`. -/
def skip_gram_fold (ws : List String) (fmap : FeatureMap) : FeatureMap :=
  (List.range ws.length).foldl (fun m i =>
    (List.range ws.length).foldl (fun m' j =>
      if i < j then
        dd_add m' ("skip-gram:" ++ ws.getD i "" ++ "/" ++ ws.getD j "") 1
      else m') m) fmap

/-- The word-class skip-gram loops of `_featurize_binary_rule`
(lines 117-121). -/
def skip_gram_class_fold (cs : List Nat) (fmap : FeatureMap) : FeatureMap :=
  (List.range cs.length).foldl (fun m i =>
    (List.range cs.length).foldl (fun m' j =>
      if i < j then
        dd_add m' ("skip-gram:word-classes:" ++ toString (cs.getD i 0) ++ "/"
                    ++ toString (cs.getD j 0)) 1
      else m') m) fmap

/-- `_featurize_binary_rule` (lines 69-125).  The `obj()` destructuring of
lhs and the two rhs items requires span-shaped items (failure is `none`);
the `assert len(src_inside_phrase) > 0` abort is modelled as `none`. -/
def featurize_binary_rule (F : Featurizer) (rule : Rule) (src_fsa : List String)
    (fmap0 : FeatureMap) : Option FeatureMap :=
  let fmap := dd_add fmap0 "type:binary" 1
  match rule.lhs, rule.rhs with
  | .span lhs_symbol lhs_start lhs_end,
      [.span _ rhs_start_1 rhs_end_1, .span _ rhs_start_2 rhs_end_2] =>
    if lhs_symbol = Sym.nt "D" then
      some (dd_add fmap "binary:recursive_deletion" 1)
    else if lhs_symbol = Sym.nt "X" then
      let fmap := if lhs_start = rhs_start_2 then dd_add fmap "binary:inverted" 1
                  else dd_add fmap "binary:monotone" 1
      let src_inside_phrase := get_phrase src_fsa lhs_start lhs_end
      if 0 < src_inside_phrase.length then
        let fmap := emb_dim_fold "inside-phrase-"
          (fun dim => (src_inside_phrase.map (fun w => F.embeddings_ch.vec w dim)).sum)
          F.embeddings_ch.dim fmap
        let src_outside_phrase := get_phrase src_fsa 0 lhs_start ++
          get_phrase src_fsa lhs_end (src_fsa.length + 1)
        let fmap := if 0 < src_outside_phrase.length then
            emb_dim_fold "outside-phrase-"
              (fun dim => (src_outside_phrase.map (fun w => F.embeddings_ch.vec w dim)).sum)
              F.embeddings_ch.dim fmap
          else fmap
        let rhs_phrase := get_phrase src_fsa rhs_start_1 rhs_end_1 ++
          get_phrase src_fsa rhs_start_2 rhs_end_2
        let fmap := skip_gram_fold rhs_phrase fmap
        let fmap := if F.word_class_features then
            skip_gram_class_fold (rhs_phrase.map F.embeddings_ch.cluster) fmap
          else fmap
        some (dd_add fmap ("source-span-len-" ++ toString (lhs_end - lhs_start)) 1)
      else
        none
    else some fmap
  | _, _ => none

/-- `_featurize_terminal_rule` (lines 130-211).  The `obj()` destructuring
of lhs and `rhs[0]` requires span-shaped items (failure is `none`).  Note
two faithfully preserved source details: the insertion word-class feature on
line 175 is a bare read (`dd_touch`), not an increment, and the insertion
dense loop on line 180 ranges over `embeddings_ch.dim()` while reading the
target-side vector. -/
def featurize_terminal_rule (F : Featurizer) (rule : Rule) (src_fsa : List String)
    (fmap0 : FeatureMap) : Option FeatureMap :=
  let fmap := dd_add fmap0 "type:terminal" 1
  match rule.lhs, rule.rhs with
  | .span lhs_symbol lhs_start lhs_end, .span rhs_symbol _ _ :: _ =>
    if lhs_symbol = Sym.nt "D" then
      let fmap := dd_add fmap "type:deletion" 1
      let src_word := get_source_word src_fsa lhs_start lhs_end
      let fmap := dd_add fmap "ibm1:del:logprob"
        (F.np_log (F.ibm1_probs (src_word, "-EPS-") + eps))
      let fmap := if F.sparse_word_features then dd_add fmap ("del:" ++ src_word) 1
                  else fmap
      let fmap := if F.word_class_features && F.sparse_word_features then
          dd_add fmap ("del:class:" ++ toString (F.embeddings_ch.cluster src_word)) 1
        else fmap
      let fmap := if F.dense_word_emb_features then
          emb_dim_fold "del:emb:dim-" (fun i => F.embeddings_ch.vec src_word i)
            F.embeddings_ch.dim fmap
        else fmap
      some fmap
    else if lhs_symbol = Sym.nt "I" then
      let fmap := dd_add fmap "type:insertion" 1
      let fmap := dd_add fmap "target-len" 1
      let tgt_word := get_target_word rhs_symbol
      let fmap := dd_add fmap "ibm1:ins:logprob"
        (F.np_log (F.ibm1_probs ("-EPS-", tgt_word) + eps))
      let fmap := if F.sparse_word_features then dd_add fmap ("ins:" ++ tgt_word) 1
                  else fmap
      let fmap := if F.word_class_features && F.sparse_word_features then
          dd_touch fmap ("ins:class:" ++ toString (F.embeddings_en.cluster tgt_word))
        else fmap
      let fmap := if F.dense_word_emb_features then
          emb_dim_fold "ins:emb:dim-" (fun i => F.embeddings_en.vec tgt_word i)
            F.embeddings_ch.dim fmap
        else fmap
      some fmap
    else if lhs_symbol = Sym.nt "T" then
      let fmap := dd_add fmap "type:translation" 1
      let fmap := dd_add fmap "target-len" 1
      let src_word := get_source_word src_fsa lhs_start lhs_end
      let tgt_word := get_target_word rhs_symbol
      let fmap := dd_add fmap "ibm1:x2y:logprob"
        (F.np_log (F.ibm1_probs (src_word, tgt_word) + eps))
      let fmap := dd_add fmap "ibm1:y2x:logprob"
        (F.np_log (F.ibm1_probs (tgt_word, src_word) + eps))
      let fmap := dd_add fmap "ibm1:geometric:log"
        (F.np_log (F.np_sqrt (F.ibm1_probs (src_word, tgt_word) *
          F.ibm1_probs (tgt_word, src_word) + eps) + eps))
      let fmap := if F.sparse_word_features then
          dd_add fmap ("trans:" ++ src_word ++ "/" ++ tgt_word) 1
        else fmap
      let fmap := if F.word_class_features && F.sparse_word_features then
          dd_add fmap ("trans:class:" ++ toString (F.embeddings_ch.cluster src_word)
            ++ "/" ++ toString (F.embeddings_en.cluster tgt_word)) 1
        else fmap
      let fmap := if F.dense_word_emb_features then
          emb_dim_fold "trans:emb:dim-"
            (fun i => F.embeddings_ch.vec src_word i - F.embeddings_en.vec tgt_word i)
            F.embeddings_ch.dim fmap
        else fmap
      some fmap
    else
      some fmap
  | _, _ => none

/-- The dispatch condition `edge.lhs.obj()[0] != Nonterminal("X")`
(line 49): for a span it compares the wrapped symbol; for the bare start
symbol `obj()` is the label string, whose first element is a character and
thus never equal to a `Nonterminal`. -/
def lhs_not_X : Item → Bool
  | .span s _ _ => decide (s ≠ Sym.nt "X")
  | .start _ => true

/-- `_featurize_edge` (lines 38-55): binary shape first, then terminal-ness
of `rhs[0]`, then the start/upgrade split on the lhs.  The branch guarded by
`not isinstance(edge.lhs, Nonterminal)` is modelled from the spec (libitg's
class hierarchy is not in the sources): it selects the bare start symbol,
and a span-shaped lhs with a non-"X" label falls through with no features. -/
def featurize_edge (F : Featurizer) (edge : Rule) (src_fsa : List String) :
    Option FeatureMap :=
  if edge.rhs.length = 2 then
    featurize_binary_rule F edge src_fsa []
  else
    match edge.rhs with
    | [] => none
    | r :: _ =>
      if r.is_terminal then
        featurize_terminal_rule F edge src_fsa []
      else if lhs_not_X edge.lhs then
        match edge.lhs with
        | .start _ => some (featurize_start_rule [])
        | _ => some []
      else
        featurize_upgrade_rule edge []

/-- Modelled from the spec: the `Features` container (`misc/features.py`,
not in the sources) records `rule → featureMap` entries in order with no
normalization or deduplication. -/
abbrev Features := List (Rule × FeatureMap)

/-- The per-forest loop shared by both entry points: featurize every edge
against the source lattice and record it; a failing edge aborts the call. -/
def featurize_rules (F : Featurizer) (src_fsa : List String) :
    List Rule → Features → Option Features
  | [], fs => some fs
  | e :: es, fs =>
    match featurize_edge F e src_fsa with
    | none => none
    | some m => featurize_rules F src_fsa es (fs ++ [(e, m)])

/-- `featurize_parse_trees` (lines 29-36): build the lattice, featurize the
forest, and, only when a best derivation is supplied, additionally featurize
its last rule. -/
def featurize_parse_trees (F : Featurizer) (Dx : List Rule) (Dxy : Option Derivation)
    (x : List String) : Option Features :=
  match featurize_rules F (make_fsa x) Dx [] with
  | none => none
  | some fs =>
    match Dxy with
    | none => some fs
    | some d =>
      match d.rules.getLast? with
      | none => none
      | some r =>
        match featurize_edge F r (make_fsa x) with
        | none => none
        | some m => some (fs ++ [(r, m)])

/-- The loop body of `featurize_parse_trees_batch` (lines 20-27): per tuple,
build the lattice from the source, featurize the forest into the shared
accumulator, then unconditionally take `Dxy._rules[-1]` — a `none`
derivation or an empty rule list makes the call fail. -/
def batch_go (F : Featurizer) :
    List (List Rule × Option Derivation × List String × List String) →
    Features → Option Features
  | [], fs => some fs
  | (Dx, Dxy, source, _target) :: rest, fs =>
    match featurize_rules F (make_fsa source) Dx fs with
    | none => none
    | some fs1 =>
      match Dxy with
      | none => none
      | some d =>
        match d.rules.getLast? with
        | none => none
        | some r =>
          match featurize_edge F r (make_fsa source) with
          | none => none
          | some m => batch_go F rest (fs1 ++ [(r, m)])

/-- `featurize_parse_trees_batch` (lines 20-27). -/
def featurize_parse_trees_batch (F : Featurizer)
    (batch : List (List Rule × Option Derivation × List String × List String)) :
    Option Features :=
  batch_go F batch []

/-! ### Concrete featurizer states used by witnesses and counterexamples -/

/-- A concrete featurizer with trivial tables, 1-dimensional embeddings and
all three feature families switched on. -/
def F_all : Featurizer :=
  { ibm1_probs := fun _ => 0
    embeddings_ch := ⟨1, fun _ _ => 0, fun _ => 0⟩
    embeddings_en := ⟨1, fun _ _ => 0, fun _ => 0⟩
    word_class_features := true
    dense_word_emb_features := true
    sparse_word_features := true
    np_log := fun _ => 0
    np_sqrt := fun _ => 0 }

/-- A concrete featurizer whose source-side table is 1-dimensional while the
target-side table is 2-dimensional. -/
def F_dims : Featurizer :=
  { ibm1_probs := fun _ => 0
    embeddings_ch := ⟨1, fun _ _ => 0, fun _ => 0⟩
    embeddings_en := ⟨2, fun _ _ => 0, fun _ => 0⟩
    word_class_features := true
    dense_word_emb_features := true
    sparse_word_features := true
    np_log := fun _ => 0
    np_sqrt := fun _ => 0 }

/-- Like `F_all` but with dense embedding features off. -/
def F_wc_sparse : Featurizer :=
  { F_all with dense_word_emb_features := false }

/-- Like `F_wc_sparse` but with sparse word features off as well. -/
def F_wc_nosparse : Featurizer :=
  { F_all with dense_word_emb_features := false, sparse_word_features := false }

/-- The keys of a terminal rule's FeatureMap whose presence is gated on
`sparse_word_features`, stated following the spec's vocabulary as the
comparison set for C2: the lexical `del:<w>`/`ins:<w>`/`trans:<s>/<t>` key
and — when word-class features are also enabled — its `:class:` sibling,
excluding any key that coincides with a dense embedding key (which is
written regardless of the sparse switch).  Empty for every non-terminal
rule. -/
def sparse_gated_keys (F : Featurizer) (edge : Rule) (src_fsa : List String) :
    List String :=
  if edge.rhs.length = 2 then [] else
  match edge.lhs, edge.rhs with
  | Item.span lhs_symbol lhs_start lhs_end, Item.span (Sym.term w) _ _ :: _ =>
    let dense_keys : List String :=
      if F.dense_word_emb_features then
        if lhs_symbol = Sym.nt "D" then
          (List.range F.embeddings_ch.dim).map (fun i => "del:emb:dim-" ++ toString i)
        else if lhs_symbol = Sym.nt "I" then
          (List.range F.embeddings_ch.dim).map (fun i => "ins:emb:dim-" ++ toString i)
        else if lhs_symbol = Sym.nt "T" then
          (List.range F.embeddings_ch.dim).map (fun i => "trans:emb:dim-" ++ toString i)
        else []
      else []
    let raw : List String :=
      if lhs_symbol = Sym.nt "D" then
        let src_word := get_source_word src_fsa lhs_start lhs_end
        ("del:" ++ src_word) ::
          (if F.word_class_features then
            ["del:class:" ++ toString (F.embeddings_ch.cluster src_word)] else [])
      else if lhs_symbol = Sym.nt "I" then
        let tgt_word := get_target_word (Sym.term w)
        ("ins:" ++ tgt_word) ::
          (if F.word_class_features then
            ["ins:class:" ++ toString (F.embeddings_en.cluster tgt_word)] else [])
      else if lhs_symbol = Sym.nt "T" then
        let src_word := get_source_word src_fsa lhs_start lhs_end
        let tgt_word := get_target_word (Sym.term w)
        ("trans:" ++ src_word ++ "/" ++ tgt_word) ::
          (if F.word_class_features then
            ["trans:class:" ++ toString (F.embeddings_ch.cluster src_word) ++ "/"
              ++ toString (F.embeddings_en.cluster tgt_word)] else [])
      else []
    raw.filter (fun k => decide (¬ k ∈ dense_keys))
  | _, _ => []

/-- The deletion rule used by the C2 witness. -/
def del_rule : Rule := ⟨Item.span (.nt "D") 0 1, [Item.span (.term "x") 0 1]⟩

/-- The C2 witness map with the sparse switch on. -/
def del_map_sparse : FeatureMap :=
  (featurize_edge {F_wc_sparse with sparse_word_features := true} del_rule ["a"]).getD []

/-- The C2 witness map with the sparse switch off. -/
def del_map_nosparse : FeatureMap :=
  (featurize_edge {F_wc_sparse with sparse_word_features := false} del_rule ["a"]).getD []

/-- The concrete feature map of a monotone Binary "X" rule used by the C5
witness. -/
def binary_witness_map : FeatureMap :=
  (featurize_edge F_all
    ⟨Item.span (.nt "X") 0 2, [Item.span (.nt "X") 0 1, Item.span (.nt "X") 1 2]⟩
    ["a", "b"]).getD []

/-- A batch element: `(forest, bestDerivation, sourceSentence,
targetSentence)`. -/
abbrev BatchTuple := List Rule × Option Derivation × List String × List String

/-! ### Basic lemmas about the defaultdict model -/

@[simp] theorem dd_get_nil (k : String) : dd_get [] k = 0 := rfl

theorem dd_get_cons (k0 : String) (v0 : ℚ) (t : FeatureMap) (k : String) :
    dd_get ((k0, v0) :: t) k = if k0 = k then v0 else dd_get t k := rfl

theorem dd_set_nil (k : String) (v : ℚ) : dd_set [] k v = [(k, v)] := rfl

theorem dd_set_cons (k0 : String) (v0 : ℚ) (t : FeatureMap) (k : String) (v : ℚ) :
    dd_set ((k0, v0) :: t) k v =
      if k0 = k then (k0, v) :: t else (k0, v0) :: dd_set t k v := rfl

theorem dd_touch_nil (k : String) : dd_touch [] k = [(k, 0)] := rfl

theorem dd_touch_cons (k0 : String) (v0 : ℚ) (t : FeatureMap) (k : String) :
    dd_touch ((k0, v0) :: t) k =
      if k0 = k then (k0, v0) :: t else (k0, v0) :: dd_touch t k := rfl

@[simp] theorem dd_mem_nil (k : String) : dd_mem [] k ↔ False := by
  simp [dd_mem]

@[simp] theorem dd_mem_cons (k0 : String) (v0 : ℚ) (t : FeatureMap) (k : String) :
    dd_mem ((k0, v0) :: t) k ↔ k0 = k ∨ dd_mem t k := by
  simp [dd_mem]

theorem dd_get_set (m : FeatureMap) (k : String) (v : ℚ) (k' : String) :
    dd_get (dd_set m k v) k' = if k' = k then v else dd_get m k' := by
  induction m with
  | nil =>
    rw [dd_set_nil, dd_get_cons]
    by_cases h : k = k'
    · rw [if_pos h, if_pos h.symm]
    · rw [if_neg h, if_neg (Ne.symm h), dd_get_nil]
  | cons p t ih =>
    obtain ⟨k0, v0⟩ := p
    rw [dd_set_cons]
    by_cases h0 : k0 = k
    · rw [if_pos h0, dd_get_cons, dd_get_cons]
      by_cases h : k0 = k'
      · rw [if_pos h, if_pos (h.symm.trans h0)]
      · rw [if_neg h, if_neg (fun hh : k' = k => h (h0.symm ▸ hh.symm)), if_neg h]
    · rw [if_neg h0, dd_get_cons, dd_get_cons, ih]
      by_cases h : k0 = k'
      · rw [if_pos h, if_pos h, if_neg (fun hh : k' = k => h0 (h.trans hh))]
      · rw [if_neg h, if_neg h]

theorem dd_mem_set (m : FeatureMap) (k : String) (v : ℚ) (k' : String) :
    dd_mem (dd_set m k v) k' ↔ k' = k ∨ dd_mem m k' := by
  induction m with
  | nil =>
    rw [dd_set_nil, dd_mem_cons, dd_mem_nil]
    exact (or_congr eq_comm Iff.rfl)
  | cons p t ih =>
    obtain ⟨k0, v0⟩ := p
    rw [dd_set_cons]
    by_cases h0 : k0 = k
    · rw [if_pos h0]
      simp only [dd_mem_cons]
      subst h0
      constructor
      · rintro (h | h)
        · exact Or.inl h.symm
        · exact Or.inr (Or.inr h)
      · rintro (h | h | h)
        · exact Or.inl h.symm
        · exact Or.inl h
        · exact Or.inr h
    · rw [if_neg h0, dd_mem_cons, dd_mem_cons, ih]
      tauto

theorem dd_get_add (m : FeatureMap) (k : String) (v : ℚ) (k' : String) :
    dd_get (dd_add m k v) k' = if k' = k then dd_get m k + v else dd_get m k' := by
  simp [dd_add, dd_get_set]

theorem dd_mem_add (m : FeatureMap) (k : String) (v : ℚ) (k' : String) :
    dd_mem (dd_add m k v) k' ↔ k' = k ∨ dd_mem m k' := by
  simp [dd_add, dd_mem_set]

theorem dd_get_touch (m : FeatureMap) (k k' : String) :
    dd_get (dd_touch m k) k' = dd_get m k' := by
  induction m with
  | nil =>
    rw [dd_touch_nil, dd_get_cons, dd_get_nil]
    by_cases h : k = k'
    · rw [if_pos h]
    · rw [if_neg h]
  | cons p t ih =>
    obtain ⟨k0, v0⟩ := p
    rw [dd_touch_cons]
    by_cases h0 : k0 = k
    · rw [if_pos h0]
    · rw [if_neg h0, dd_get_cons, dd_get_cons, ih]

theorem dd_mem_touch (m : FeatureMap) (k k' : String) :
    dd_mem (dd_touch m k) k' ↔ k' = k ∨ dd_mem m k' := by
  induction m with
  | nil =>
    rw [dd_touch_nil, dd_mem_cons, dd_mem_nil]
    exact (or_congr eq_comm Iff.rfl)
  | cons p t ih =>
    obtain ⟨k0, v0⟩ := p
    rw [dd_touch_cons]
    by_cases h0 : k0 = k
    · rw [if_pos h0]
      simp only [dd_mem_cons]
      subst h0
      constructor
      · rintro (h | h)
        · exact Or.inl h.symm
        · exact Or.inr (Or.inr h)
      · rintro (h | h | h)
        · exact Or.inl h.symm
        · exact Or.inl h
        · exact Or.inr h
    · rw [if_neg h0, dd_mem_cons, dd_mem_cons, ih]
      tauto

theorem dd_get_foldl {β : Type} (f : FeatureMap → β → FeatureMap) (l : List β)
    (m : FeatureMap) (k : String) (h : ∀ m' b, dd_get (f m' b) k = dd_get m' k) :
    dd_get (l.foldl f m) k = dd_get m k := by
  induction l generalizing m with
  | nil => rfl
  | cons a t ih => rw [List.foldl_cons, ih, h]

theorem dd_mem_foldl {β : Type} (f : FeatureMap → β → FeatureMap) (l : List β)
    (m : FeatureMap) (k : String) (h : ∀ m' b, dd_mem (f m' b) k ↔ dd_mem m' k) :
    dd_mem (l.foldl f m) k ↔ dd_mem m k := by
  induction l generalizing m with
  | nil => exact Iff.rfl
  | cons a t ih => rw [List.foldl_cons, ih, h]

theorem dd_mem_foldl_set {β : Type} (key : β → String) (v : β → ℚ) (l : List β)
    (m : FeatureMap) (k : String) :
    dd_mem (l.foldl (fun m' b => dd_set m' (key b) (v b)) m) k ↔
      dd_mem m k ∨ ∃ b ∈ l, key b = k := by
  induction l generalizing m with
  | nil => simp
  | cons a t ih =>
    rw [List.foldl_cons, ih, dd_mem_set]
    constructor
    · rintro ((h | h) | ⟨b, hb, hk⟩)
      · exact Or.inr ⟨a, List.mem_cons_self a t, h.symm⟩
      · exact Or.inl h
      · exact Or.inr ⟨b, List.mem_cons_of_mem a hb, hk⟩
    · rintro (h | ⟨b, hb, hk⟩)
      · exact Or.inl (Or.inr h)
      · rcases List.mem_cons.mp hb with rfl | hb'
        · exact Or.inl (Or.inl hk.symm)
        · exact Or.inr ⟨b, hb', hk⟩

theorem dd_get_foldl_set_congr {β : Type} (key : β → String) (v : β → ℚ) (l : List β)
    (m0 m1 : FeatureMap) (k : String)
    (h : dd_get m0 k = dd_get m1 k ∨ ∃ b ∈ l, key b = k) :
    dd_get (l.foldl (fun m' b => dd_set m' (key b) (v b)) m0) k =
      dd_get (l.foldl (fun m' b => dd_set m' (key b) (v b)) m1) k := by
  induction l generalizing m0 m1 with
  | nil =>
    rcases h with h | ⟨b, hb, _⟩
    · exact h
    · exact absurd hb (List.not_mem_nil b)
  | cons a t ih =>
    rw [List.foldl_cons, List.foldl_cons]
    apply ih
    rcases eq_or_ne (key a) k with hk | hk
    · left
      rw [dd_get_set, dd_get_set, if_pos hk.symm, if_pos hk.symm]
    · rcases h with h | ⟨b, hb, hkey⟩
      · left
        rw [dd_get_set, dd_get_set, if_neg (fun hh => hk hh.symm),
          if_neg (fun hh => hk hh.symm), h]
      · rcases List.mem_cons.mp hb with rfl | hb'
        · exact absurd hkey hk
        · exact Or.inr ⟨b, hb', hkey⟩

/-! ### String-key disequality helpers -/

theorem str_data_append (s t : String) : (s ++ t).data = s.data ++ t.data := by
  cases s; cases t; rfl

theorem str_ext {s t : String} (h : s.data = t.data) : s = t := by
  cases s; cases t; cases h; rfl

theorem str_append_assoc (a b c : String) : a ++ b ++ c = a ++ (b ++ c) :=
  str_ext (by simp [str_data_append, List.append_assoc])

theorem key_ne_key (a b t u : String) (n : Nat) (hn1 : n ≤ a.data.length)
    (hn2 : n ≤ b.data.length) (h : a.data.take n ≠ b.data.take n) :
    a ++ t ≠ b ++ u := by
  intro he
  apply h
  have hd := congrArg String.data he
  rw [str_data_append, str_data_append] at hd
  rw [← List.take_append_of_le_length hn1, ← List.take_append_of_le_length hn2, hd]

theorem str_append_empty (s : String) : s ++ "" = s :=
  str_ext (by simp [str_data_append])

theorem key_ne_lit (a t b : String) (n : Nat) (hn1 : n ≤ a.data.length)
    (hn2 : n ≤ b.data.length) (h : a.data.take n ≠ b.data.take n) :
    a ++ t ≠ b := by
  intro he
  exact key_ne_key a b t "" n hn1 hn2 h (by rw [str_append_empty, he])

theorem lit_ne_key (a t b : String) (n : Nat) (hn1 : n ≤ a.data.length)
    (hn2 : n ≤ b.data.length) (h : b.data.take n ≠ a.data.take n) :
    b ≠ a ++ t :=
  (key_ne_lit a t b n hn1 hn2 (fun hh => h hh.symm)).symm

/-! ### Peeling lemmas for optional writes and loops -/

theorem dd_get_ite_mm (c : Prop) [Decidable c] (m0 m1 : FeatureMap) (k : String)
    (h : dd_get m0 k = dd_get m1 k) :
    dd_get (if c then m0 else m1) k = dd_get m1 k := by
  split
  · exact h
  · rfl

theorem dd_mem_ite_mm (c : Prop) [Decidable c] (m0 m1 : FeatureMap) (k : String)
    (h : dd_mem m0 k ↔ dd_mem m1 k) :
    dd_mem (if c then m0 else m1) k ↔ dd_mem m1 k := by
  split
  · exact h
  · exact Iff.rfl

theorem dd_get_add_ne (m : FeatureMap) (K : String) (v : ℚ) (k : String)
    (h : ¬ k = K) : dd_get (dd_add m K v) k = dd_get m k := by
  rw [dd_get_add, if_neg h]

theorem dd_mem_add_ne (m : FeatureMap) (K : String) (v : ℚ) (k : String)
    (h : ¬ k = K) : dd_mem (dd_add m K v) k ↔ dd_mem m k := by
  rw [dd_mem_add]
  exact or_iff_right h

theorem dd_get_fold_set_ne {β : Type} (key : β → String) (v : β → ℚ) (l : List β)
    (m : FeatureMap) (k : String) (h : ∀ b ∈ l, ¬ k = key b) :
    dd_get (l.foldl (fun m' b => dd_set m' (key b) (v b)) m) k = dd_get m k := by
  induction l generalizing m with
  | nil => rfl
  | cons a t ih =>
    rw [List.foldl_cons, ih _ (fun b hb => h b (List.mem_cons_of_mem a hb)),
      dd_get_set, if_neg (h a (List.mem_cons_self a t))]

theorem dd_get_emb_fold_ne (pfx : String) (vals : Nat → ℚ) (d : Nat)
    (m : FeatureMap) (k : String) (h : ∀ i : Nat, ¬ k = pfx ++ toString i) :
    dd_get (emb_dim_fold pfx vals d m) k = dd_get m k :=
  dd_get_fold_set_ne _ _ _ _ _ (fun b _ => h b)

theorem dd_mem_emb_fold (pfx : String) (vals : Nat → ℚ) (d : Nat)
    (m : FeatureMap) (k : String) :
    dd_mem (emb_dim_fold pfx vals d m) k ↔
      dd_mem m k ∨ ∃ i ∈ List.range d, pfx ++ toString i = k :=
  dd_mem_foldl_set _ _ _ _ _

theorem dd_mem_emb_fold_ne (pfx : String) (vals : Nat → ℚ) (d : Nat)
    (m : FeatureMap) (k : String) (h : ∀ i : Nat, ¬ k = pfx ++ toString i) :
    dd_mem (emb_dim_fold pfx vals d m) k ↔ dd_mem m k := by
  rw [dd_mem_emb_fold]
  constructor
  · rintro (hm | ⟨i, _, hi⟩)
    · exact hm
    · exact absurd hi.symm (h i)
  · exact Or.inl

theorem dd_get_skip_fold (ws : List String) (m : FeatureMap) (k : String)
    (h : ∀ x y : String, ¬ k = "skip-gram:" ++ x ++ "/" ++ y) :
    dd_get (skip_gram_fold ws m) k = dd_get m k := by
  unfold skip_gram_fold
  apply dd_get_foldl
  intro m' i
  apply dd_get_foldl
  intro m'' j
  split
  · exact dd_get_add_ne _ _ _ _ (h _ _)
  · rfl

theorem dd_mem_skip_fold (ws : List String) (m : FeatureMap) (k : String)
    (h : ∀ x y : String, ¬ k = "skip-gram:" ++ x ++ "/" ++ y) :
    dd_mem (skip_gram_fold ws m) k ↔ dd_mem m k := by
  unfold skip_gram_fold
  apply dd_mem_foldl
  intro m' i
  apply dd_mem_foldl
  intro m'' j
  split
  · exact dd_mem_add_ne _ _ _ _ (h _ _)
  · exact Iff.rfl

theorem dd_get_skip_class_fold (cs : List Nat) (m : FeatureMap) (k : String)
    (h : ∀ x y : String, ¬ k = "skip-gram:word-classes:" ++ x ++ "/" ++ y) :
    dd_get (skip_gram_class_fold cs m) k = dd_get m k := by
  unfold skip_gram_class_fold
  apply dd_get_foldl
  intro m' i
  apply dd_get_foldl
  intro m'' j
  split
  · exact dd_get_add_ne _ _ _ _ (h _ _)
  · rfl

theorem dd_mem_skip_class_fold (cs : List Nat) (m : FeatureMap) (k : String)
    (h : ∀ x y : String, ¬ k = "skip-gram:word-classes:" ++ x ++ "/" ++ y) :
    dd_mem (skip_gram_class_fold cs m) k ↔ dd_mem m k := by
  unfold skip_gram_class_fold
  apply dd_mem_foldl
  intro m' i
  apply dd_mem_foldl
  intro m'' j
  split
  · exact dd_mem_add_ne _ _ _ _ (h _ _)
  · exact Iff.rfl

/-- Disequality of a literal key from a composite `a ++ x ++ "/" ++ y` key,
derived from the first characters of the literals. -/
theorem lit_ne_pair_key (a x y b : String) (n : Nat) (hn1 : n ≤ a.data.length)
    (hn2 : n ≤ b.data.length) (h : b.data.take n ≠ a.data.take n) :
    ¬ b = a ++ x ++ "/" ++ y := by
  rw [str_append_assoc, str_append_assoc]
  exact lit_ne_key a (x ++ ("/" ++ y)) b n hn1 hn2 h

theorem dd_mem_ite_add (c : Prop) [Decidable c] (m : FeatureMap) (K : String)
    (v : ℚ) (k : String) :
    dd_mem (if c then dd_add m K v else m) k ↔ (c ∧ k = K) ∨ dd_mem m k := by
  split
  · rename_i hc
    rw [dd_mem_add]
    constructor
    · rintro (h | h)
      · exact Or.inl ⟨hc, h⟩
      · exact Or.inr h
    · rintro (⟨_, h⟩ | h)
      · exact Or.inl h
      · exact Or.inr h
  · rename_i hc
    constructor
    · exact Or.inr
    · rintro (⟨hcc, _⟩ | h)
      · exact absurd hcc hc
      · exact h

theorem dd_mem_ite_touch (c : Prop) [Decidable c] (m : FeatureMap) (K k : String) :
    dd_mem (if c then dd_touch m K else m) k ↔ (c ∧ k = K) ∨ dd_mem m k := by
  split
  · rename_i hc
    rw [dd_mem_touch]
    constructor
    · rintro (h | h)
      · exact Or.inl ⟨hc, h⟩
      · exact Or.inr h
    · rintro (⟨_, h⟩ | h)
      · exact Or.inl h
      · exact Or.inr h
  · rename_i hc
    constructor
    · exact Or.inr
    · rintro (⟨hcc, _⟩ | h)
      · exact absurd hcc hc
      · exact h

theorem dd_mem_ite_fold (c : Prop) [Decidable c] (pfx : String) (vals : Nat → ℚ)
    (d : Nat) (m : FeatureMap) (k : String) :
    dd_mem (if c then emb_dim_fold pfx vals d m else m) k ↔
      (c ∧ ∃ i ∈ List.range d, pfx ++ toString i = k) ∨ dd_mem m k := by
  split
  · rename_i hc
    rw [dd_mem_emb_fold]
    constructor
    · rintro (h | h)
      · exact Or.inr h
      · exact Or.inl ⟨hc, h⟩
    · rintro (⟨_, h⟩ | h)
      · exact Or.inr h
      · exact Or.inl h
  · rename_i hc
    constructor
    · exact Or.inr
    · rintro (⟨hcc, _⟩ | h)
      · exact absurd hcc hc
      · exact h

theorem dd_get_emb_fold_congr (pfx : String) (vals : Nat → ℚ) (d : Nat)
    (m0 m1 : FeatureMap) (k : String)
    (h : dd_get m0 k = dd_get m1 k ∨ ∃ i ∈ List.range d, pfx ++ toString i = k) :
    dd_get (emb_dim_fold pfx vals d m0) k = dd_get (emb_dim_fold pfx vals d m1) k :=
  dd_get_foldl_set_congr _ _ _ _ _ _ h

theorem dd_get_emb_fold_ne_mem (pfx : String) (vals : Nat → ℚ) (d : Nat)
    (m : FeatureMap) (k : String)
    (h : ∀ i ∈ List.range d, ¬ k = pfx ++ toString i) :
    dd_get (emb_dim_fold pfx vals d m) k = dd_get m k :=
  dd_get_fold_set_ne _ _ _ _ _ h

theorem mem_ite_singleton (c : Prop) [Decidable c] (x k : String) :
    k ∈ (if c then [x] else ([] : List String)) ↔ c ∧ k = x := by
  split
  · rename_i hc
    rw [List.mem_singleton]
    exact ⟨fun h => ⟨hc, h⟩, fun h => h.2⟩
  · rename_i hc
    constructor
    · intro h
      exact absurd h (List.not_mem_nil k)
    · rintro ⟨hcc, _⟩
      exact absurd hcc hc

/-- Generic characterization of a terminal branch for the C2 comparison:
`B` is the branch's sparse-independent base map, `K1` the lexical sparse
key, `cstep`/`K2` the word-class step and its key, and the dense loop writes
`pfx ++ i` keys.  With the sparse switch off the branch yields the dense
fold over `B` alone; with it on, over `B` extended by `K1` and (under `cw`)
the class step.  The key set of the "off" map is the "on" key set minus the
filtered sparse keys, and values agree on every surviving key. -/
theorem sparse_char_generic (cw cd : Prop) [Decidable cw] [Decidable cd]
    (B : FeatureMap) (K1 K2 pfx : String) (vals : Nat → ℚ) (d : Nat)
    (cstep : FeatureMap → FeatureMap) (k : String)
    (hc_mem : ∀ m, dd_mem (cstep m) k ↔ (k = K2 ∨ dd_mem m k))
    (hc_get : ¬ k = K2 → ∀ m, dd_get (cstep m) k = dd_get m k)
    (hK1B : k = K1 → ¬ dd_mem B k)
    (hK2B : k = K2 → ¬ dd_mem B k) :
    (dd_mem (if cd then emb_dim_fold pfx vals d B else B) k ↔
      (dd_mem (if cd then
          emb_dim_fold pfx vals d
            (if cw then cstep (dd_add B K1 1) else dd_add B K1 1)
        else (if cw then cstep (dd_add B K1 1) else dd_add B K1 1)) k
      ∧ ¬ k ∈ (K1 :: (if cw then [K2] else [])).filter
          (fun x => decide (¬ x ∈ (if cd then
            (List.range d).map (fun i => pfx ++ toString i) else [])))))
    ∧ (dd_mem (if cd then emb_dim_fold pfx vals d B else B) k →
      dd_get (if cd then emb_dim_fold pfx vals d B else B) k =
        dd_get (if cd then
            emb_dim_fold pfx vals d
              (if cw then cstep (dd_add B K1 1) else dd_add B K1 1)
          else (if cw then cstep (dd_add B K1 1) else dd_add B K1 1)) k) := by
  have hA : dd_mem (if cw then cstep (dd_add B K1 1) else dd_add B K1 1) k ↔
      ((cw ∧ k = K2) ∨ k = K1 ∨ dd_mem B k) := by
    split
    · rename_i hcw
      rw [hc_mem, dd_mem_add]
      constructor
      · rintro (h | h | h)
        · exact Or.inl ⟨hcw, h⟩
        · exact Or.inr (Or.inl h)
        · exact Or.inr (Or.inr h)
      · rintro (⟨_, h⟩ | h | h)
        · exact Or.inl h
        · exact Or.inr (Or.inl h)
        · exact Or.inr (Or.inr h)
    · rename_i hcw
      rw [dd_mem_add]
      constructor
      · rintro (h | h)
        · exact Or.inr (Or.inl h)
        · exact Or.inr (Or.inr h)
      · rintro (⟨hcw', _⟩ | h | h)
        · exact absurd hcw' hcw
        · exact Or.inl h
        · exact Or.inr h
  have hE : k ∈ (if cd then (List.range d).map (fun i => pfx ++ toString i)
      else ([] : List String)) ↔ (cd ∧ ∃ i ∈ List.range d, pfx ++ toString i = k) := by
    split
    · rename_i hcd
      rw [List.mem_map]
      exact ⟨fun h => ⟨hcd, h⟩, fun h => h.2⟩
    · rename_i hcd
      constructor
      · intro h
        exact absurd h (List.not_mem_nil k)
      · rintro ⟨hcc, _⟩
        exact absurd hcc hcd
  have hS : k ∈ (K1 :: (if cw then [K2] else [])).filter
      (fun x => decide (¬ x ∈ (if cd then
        (List.range d).map (fun i => pfx ++ toString i) else []))) ↔
      ((k = K1 ∨ (cw ∧ k = K2)) ∧ ¬ (cd ∧ ∃ i ∈ List.range d, pfx ++ toString i = k)) := by
    rw [List.mem_filter, List.mem_cons, mem_ite_singleton, decide_eq_true_eq, hE]
  constructor
  · rw [dd_mem_ite_fold, dd_mem_ite_fold, hA, hS]
    constructor
    · intro h
      refine ⟨?_, ?_⟩
      · rcases h with h | h
        · exact Or.inl h
        · exact Or.inr (Or.inr (Or.inr h))
      · rintro ⟨hk12, hnpe⟩
        rcases h with h | h
        · exact hnpe h
        · rcases hk12 with h1 | ⟨_, h2⟩
          · exact (hK1B h1) h
          · exact (hK2B h2) h
    · rintro ⟨h1, h2⟩
      rcases h1 with h | h
      · exact Or.inl h
      · rcases h with ⟨hcw, hk2⟩ | h
        · by_cases hpe : cd ∧ ∃ i ∈ List.range d, pfx ++ toString i = k
          · exact Or.inl hpe
          · exact absurd ⟨Or.inr ⟨hcw, hk2⟩, hpe⟩ h2
        · rcases h with h | h
          · by_cases hpe : cd ∧ ∃ i ∈ List.range d, pfx ++ toString i = k
            · exact Or.inl hpe
            · exact absurd ⟨Or.inl h, hpe⟩ h2
          · exact Or.inr h
  · intro hmem
    rw [dd_mem_ite_fold] at hmem
    by_cases hcd : cd
    · rw [if_pos hcd, if_pos hcd]
      by_cases hPE : ∃ i ∈ List.range d, pfx ++ toString i = k
      · exact dd_get_emb_fold_congr _ _ _ _ _ _ (Or.inr hPE)
      · have hne : ∀ i ∈ List.range d, ¬ k = pfx ++ toString i :=
          fun i hi hk => hPE ⟨i, hi, hk.symm⟩
        rw [dd_get_emb_fold_ne_mem _ _ _ _ _ hne, dd_get_emb_fold_ne_mem _ _ _ _ _ hne]
        have hmB : dd_mem B k := by
          rcases hmem with ⟨_, hpe⟩ | h
          · exact absurd hpe hPE
          · exact h
        have hk1 : ¬ k = K1 := fun h => (hK1B h) hmB
        have hk2 : ¬ k = K2 := fun h => (hK2B h) hmB
        rw [dd_get_ite_mm _ _ _ _ (hc_get hk2 _), dd_get_add_ne _ _ _ _ hk1]
    · rw [if_neg hcd, if_neg hcd]
      have hmB : dd_mem B k := by
        rcases hmem with ⟨hc, _⟩ | h
        · exact absurd hc hcd
        · exact h
      have hk1 : ¬ k = K1 := fun h => (hK1B h) hmB
      have hk2 : ¬ k = K2 := fun h => (hK2B h) hmB
      rw [dd_get_ite_mm _ _ _ _ (hc_get hk2 _), dd_get_add_ne _ _ _ _ hk1]

/-! ### Claims -/

/-- C2 counterexample: for the Deletion rule D[0,1] → 'x' with
wordClassFeatures enabled (all else equal), the key `del:class:0` is present
when sparseWordFeatures is enabled and absent when it is disabled — the
`:class:` sibling keys are gated on sparseWordFeatures too, contradicting
the claim that they are unchanged. -/
theorem sparse_gates_class_keys :
    dd_mem ((featurize_edge F_wc_sparse
        ⟨Item.span (.nt "D") 0 1, [Item.span (.term "x") 0 1]⟩ ["a"]).getD [])
      "del:class:0"
    ∧ ¬ dd_mem ((featurize_edge F_wc_nosparse
        ⟨Item.span (.nt "D") 0 1, [Item.span (.term "x") 0 1]⟩ ["a"]).getD [])
      "del:class:0" := by
  decide

/-- Auxiliary: the C2 characterization is trivial when both switch settings
produce the same map and no key is gated. -/
theorem sparse_char_trivial (m : FeatureMap) (k : String) :
    (dd_mem m k ↔ (dd_mem m k ∧ ¬ k ∈ ([] : List String)))
    ∧ (dd_mem m k → dd_get m k = dd_get m k) := by
  constructor
  · exact ⟨fun h => ⟨h, List.not_mem_nil k⟩, fun h => h.1⟩
  · intro _
    rfl

/-- C2 (amended): for every rule, disabling `sparseWordFeatures` (all other
options unchanged) yields a FeatureMap whose key set is the enabled one
minus the sparse-gated keys — the lexical `del:`/`ins:`/`trans:` keys AND
their `:class:` siblings, which are gated on `sparseWordFeatures` as well,
except any that coincide with a dense embedding key — and whose values agree
with the enabled map on every surviving key; `type:*`, `ibm1:*`,
`target-len` and the embedding-dimension keys are unaffected. -/
theorem sparse_switch_removes_exactly_gated_keys (F : Featurizer) (edge : Rule)
    (fsa : List String) (m_t m_f : FeatureMap)
    (ht : featurize_edge {F with sparse_word_features := true} edge fsa = some m_t)
    (hf : featurize_edge {F with sparse_word_features := false} edge fsa = some m_f)
    (k : String) :
    (dd_mem m_f k ↔ (dd_mem m_t k ∧ ¬ k ∈ sparse_gated_keys F edge fsa))
    ∧ (dd_mem m_f k → dd_get m_f k = dd_get m_t k) := by
  obtain ⟨lhs, rhs⟩ := edge
  unfold featurize_edge at ht hf
  dsimp only at ht hf
  by_cases hlen : rhs.length = 2
  · rw [if_pos hlen] at ht hf
    have hbin : featurize_binary_rule {F with sparse_word_features := true}
        ⟨lhs, rhs⟩ fsa []
        = featurize_binary_rule {F with sparse_word_features := false}
        ⟨lhs, rhs⟩ fsa [] := rfl
    rw [hbin, hf] at ht
    injection ht with ht
    subst ht
    have hSG : sparse_gated_keys F ⟨lhs, rhs⟩ fsa = [] := by
      unfold sparse_gated_keys
      dsimp only
      rw [if_pos hlen]
    rw [hSG]
    exact sparse_char_trivial m_f k
  · rw [if_neg hlen] at ht hf
    cases rhs with
    | nil => simp at ht
    | cons r rest =>
      dsimp only at ht hf
      by_cases hterm : r.is_terminal = true
      · rw [if_pos hterm] at ht hf
        cases r with
        | start lbl => simp [Item.is_terminal] at hterm
        | span sym rs re =>
          cases sym with
          | nt n => simp [Item.is_terminal] at hterm
          | term w =>
            cases lhs with
            | start lbl =>
              unfold featurize_terminal_rule at ht
              simp at ht
            | span lsym ls le =>
              unfold featurize_terminal_rule at ht hf
              dsimp only at ht hf
              simp at ht hf
              by_cases hD : lsym = Sym.nt "D"
              · subst hD
                simp only [reduceIte] at ht hf
                injection ht with ht
                injection hf with hf
                subst ht
                subst hf
                have hSG : sparse_gated_keys F
                    ⟨Item.span (Sym.nt "D") ls le, Item.span (Sym.term w) rs re :: rest⟩ fsa
                    = (("del:" ++ get_source_word fsa ls le) ::
                        (if F.word_class_features = true then
                          ["del:class:" ++
                            toString (F.embeddings_ch.cluster (get_source_word fsa ls le))]
                        else [])).filter
                        (fun x => decide (¬ x ∈ (if F.dense_word_emb_features = true then
                          (List.range F.embeddings_ch.dim).map
                            (fun i => "del:emb:dim-" ++ toString i)
                          else []))) := by
                  unfold sparse_gated_keys
                  try dsimp only
                  rw [if_neg hlen]
                  try dsimp only
                  try simp only [reduceIte]
                rw [hSG]
                refine sparse_char_generic (F.word_class_features = true)
                  (F.dense_word_emb_features = true) _ _ _ "del:emb:dim-" _
                  F.embeddings_ch.dim
                  (fun m => dd_add m ("del:class:" ++
                    toString (F.embeddings_ch.cluster (get_source_word fsa ls le))) 1) k
                  (fun m => dd_mem_add m _ 1 k)
                  (fun hk2 m => dd_get_add_ne m _ 1 k hk2) ?_ ?_
                · intro h1 hmB
                  simp only [dd_mem_add, dd_mem_nil, or_false] at hmB
                  subst h1
                  rcases hmB with h | h | h
                  · exact key_ne_lit "del:" _ _ 1 (by decide) (by decide) (by decide) h
                  · exact key_ne_lit "del:" _ _ 1 (by decide) (by decide) (by decide) h
                  · exact key_ne_lit "del:" _ _ 1 (by decide) (by decide) (by decide) h
                · intro h2 hmB
                  simp only [dd_mem_add, dd_mem_nil, or_false] at hmB
                  subst h2
                  rcases hmB with h | h | h
                  · exact key_ne_lit "del:class:" _ _ 1 (by decide) (by decide) (by decide) h
                  · exact key_ne_lit "del:class:" _ _ 1 (by decide) (by decide) (by decide) h
                  · exact key_ne_lit "del:class:" _ _ 1 (by decide) (by decide) (by decide) h
              · by_cases hI : lsym = Sym.nt "I"
                · subst hI
                  rw [if_neg hD] at ht hf
                  simp only [reduceIte] at ht hf
                  injection ht with ht
                  injection hf with hf
                  subst ht
                  subst hf
                  have hSG : sparse_gated_keys F
                      ⟨Item.span (Sym.nt "I") ls le, Item.span (Sym.term w) rs re :: rest⟩ fsa
                      = (("ins:" ++ get_target_word (Sym.term w)) ::
                          (if F.word_class_features = true then
                            ["ins:class:" ++
                              toString (F.embeddings_en.cluster (get_target_word (Sym.term w)))]
                          else [])).filter
                          (fun x => decide (¬ x ∈ (if F.dense_word_emb_features = true then
                            (List.range F.embeddings_ch.dim).map
                              (fun i => "ins:emb:dim-" ++ toString i)
                            else []))) := by
                    unfold sparse_gated_keys
                    try dsimp only
                    rw [if_neg hlen]
                    try dsimp only
                    rw [if_neg hD, if_neg hD,
                      if_pos (show Sym.nt "I" = Sym.nt "I" from rfl),
                      if_pos (show Sym.nt "I" = Sym.nt "I" from rfl)]
                  rw [hSG]
                  refine sparse_char_generic (F.word_class_features = true)
                    (F.dense_word_emb_features = true) _ _ _ "ins:emb:dim-" _
                    F.embeddings_ch.dim
                    (fun m => dd_touch m ("ins:class:" ++
                      toString (F.embeddings_en.cluster (get_target_word (Sym.term w))))) k
                    (fun m => dd_mem_touch m _ k)
                    (fun _ m => dd_get_touch m _ k) ?_ ?_
                  · intro h1 hmB
                    simp only [dd_mem_add, dd_mem_nil, or_false] at hmB
                    subst h1
                    rcases hmB with h | h | h | h
                    · exact key_ne_lit "ins:" _ _ 2 (by decide) (by decide) (by decide) h
                    · exact key_ne_lit "ins:" _ _ 1 (by decide) (by decide) (by decide) h
                    · exact key_ne_lit "ins:" _ _ 1 (by decide) (by decide) (by decide) h
                    · exact key_ne_lit "ins:" _ _ 1 (by decide) (by decide) (by decide) h
                  · intro h2 hmB
                    simp only [dd_mem_add, dd_mem_nil, or_false] at hmB
                    subst h2
                    rcases hmB with h | h | h | h
                    · exact key_ne_lit "ins:class:" _ _ 2 (by decide) (by decide) (by decide) h
                    · exact key_ne_lit "ins:class:" _ _ 1 (by decide) (by decide) (by decide) h
                    · exact key_ne_lit "ins:class:" _ _ 1 (by decide) (by decide) (by decide) h
                    · exact key_ne_lit "ins:class:" _ _ 1 (by decide) (by decide) (by decide) h
                · by_cases hT : lsym = Sym.nt "T"
                  · subst hT
                    rw [if_neg hD, if_neg hI] at ht hf
                    simp only [reduceIte] at ht hf
                    injection ht with ht
                    injection hf with hf
                    subst ht
                    subst hf
                    have hSG : sparse_gated_keys F
                        ⟨Item.span (Sym.nt "T") ls le, Item.span (Sym.term w) rs re :: rest⟩ fsa
                        = (("trans:" ++ get_source_word fsa ls le ++ "/"
                              ++ get_target_word (Sym.term w)) ::
                            (if F.word_class_features = true then
                              ["trans:class:" ++
                                toString (F.embeddings_ch.cluster (get_source_word fsa ls le))
                                ++ "/" ++
                                toString (F.embeddings_en.cluster (get_target_word (Sym.term w)))]
                            else [])).filter
                            (fun x => decide (¬ x ∈ (if F.dense_word_emb_features = true then
                              (List.range F.embeddings_ch.dim).map
                                (fun i => "trans:emb:dim-" ++ toString i)
                              else []))) := by
                      unfold sparse_gated_keys
                      try dsimp only
                      rw [if_neg hlen]
                      try dsimp only
                      rw [if_neg hD, if_neg hD, if_neg hI, if_neg hI,
                        if_pos (show Sym.nt "T" = Sym.nt "T" from rfl),
                        if_pos (show Sym.nt "T" = Sym.nt "T" from rfl)]
                    rw [hSG]
                    refine sparse_char_generic (F.word_class_features = true)
                      (F.dense_word_emb_features = true) _ _ _ "trans:emb:dim-" _
                      F.embeddings_ch.dim
                      (fun m => dd_add m ("trans:class:" ++
                        toString (F.embeddings_ch.cluster (get_source_word fsa ls le))
                        ++ "/" ++
                        toString (F.embeddings_en.cluster (get_target_word (Sym.term w)))) 1) k
                      (fun m => dd_mem_add m _ 1 k)
                      (fun hk2 m => dd_get_add_ne m _ 1 k hk2) ?_ ?_
                    · intro h1 hmB
                      simp only [dd_mem_add, dd_mem_nil, or_false] at hmB
                      subst h1
                      rcases hmB with h | h | h | h | h | h
                      · exact lit_ne_pair_key "trans:" _ _ _ 1
                          (by decide) (by decide) (by decide) h.symm
                      · exact lit_ne_pair_key "trans:" _ _ _ 1
                          (by decide) (by decide) (by decide) h.symm
                      · exact lit_ne_pair_key "trans:" _ _ _ 1
                          (by decide) (by decide) (by decide) h.symm
                      · exact lit_ne_pair_key "trans:" _ _ _ 2
                          (by decide) (by decide) (by decide) h.symm
                      · exact lit_ne_pair_key "trans:" _ _ _ 2
                          (by decide) (by decide) (by decide) h.symm
                      · exact lit_ne_pair_key "trans:" _ _ _ 2
                          (by decide) (by decide) (by decide) h.symm
                    · intro h2 hmB
                      simp only [dd_mem_add, dd_mem_nil, or_false] at hmB
                      subst h2
                      rcases hmB with h | h | h | h | h | h
                      · exact lit_ne_pair_key "trans:class:" _ _ _ 1
                          (by decide) (by decide) (by decide) h.symm
                      · exact lit_ne_pair_key "trans:class:" _ _ _ 1
                          (by decide) (by decide) (by decide) h.symm
                      · exact lit_ne_pair_key "trans:class:" _ _ _ 1
                          (by decide) (by decide) (by decide) h.symm
                      · exact lit_ne_pair_key "trans:class:" _ _ _ 2
                          (by decide) (by decide) (by decide) h.symm
                      · exact lit_ne_pair_key "trans:class:" _ _ _ 2
                          (by decide) (by decide) (by decide) h.symm
                      · exact lit_ne_pair_key "trans:class:" _ _ _ 2
                          (by decide) (by decide) (by decide) h.symm
                  · rw [if_neg hD, if_neg hI, if_neg hT] at ht hf
                    rw [hf] at ht
                    injection ht with ht
                    subst ht
                    have hSG : sparse_gated_keys F
                        ⟨Item.span lsym ls le, Item.span (Sym.term w) rs re :: rest⟩ fsa
                        = [] := by
                      unfold sparse_gated_keys
                      try dsimp only
                      rw [if_neg hlen]
                      try dsimp only
                      rw [if_neg hD, if_neg hD, if_neg hI, if_neg hI,
                        if_neg hT, if_neg hT]
                      rfl
                    rw [hSG]
                    exact sparse_char_trivial m_f k
      · rw [if_neg hterm] at ht hf
        rw [hf] at ht
        injection ht with ht
        subst ht
        have hSG : sparse_gated_keys F ⟨lhs, r :: rest⟩ fsa = [] := by
          unfold sparse_gated_keys
          dsimp only
          rw [if_neg hlen]
          cases lhs with
          | start lbl =>
            cases r <;> rfl
          | span lsym2 a2 b2 =>
            cases r with
            | start lbl2 => rfl
            | span sym2 c2 d2 =>
              cases sym2 with
              | term w2 => simp [Item.is_terminal] at hterm
              | nt n2 => rfl
        rw [hSG]
        exact sparse_char_trivial m_f k

/-- Witness for C2 (amended) at the concrete deletion rule and the gated key
`del:class:0`. -/
theorem sparse_switch_removes_exactly_gated_keys_witness :
    (dd_mem del_map_nosparse "del:class:0" ↔
      (dd_mem del_map_sparse "del:class:0"
        ∧ ¬ "del:class:0" ∈ sparse_gated_keys F_wc_sparse del_rule ["a"]))
    ∧ (dd_mem del_map_nosparse "del:class:0" →
      dd_get del_map_nosparse "del:class:0" = dd_get del_map_sparse "del:class:0") :=
  sparse_switch_removes_exactly_gated_keys F_wc_sparse del_rule ["a"]
    del_map_sparse del_map_nosparse rfl rfl "del:class:0"

/-- C3: a Start rule — a bare (un-spanned) start-symbol lhs with a single
non-terminal rhs item — is featurized to exactly `{"top": 1.0}`, with no
other keys. -/
theorem start_rule_exactly_top (F : Featurizer) (lbl : String) (r : Item)
    (fsa : List String) (h : r.is_terminal = false) :
    featurize_edge F ⟨Item.start lbl, [r]⟩ fsa = some [("top", 1)] := by
  unfold featurize_edge
  simp [h, lhs_not_X, featurize_start_rule, dd_add, dd_set, dd_get]

/-- Witness for C3: a concrete start rule over the start label "S". -/
theorem start_rule_exactly_top_witness :
    featurize_edge F_all ⟨Item.start "S", [Item.span (.nt "X") 0 1]⟩ ["a"] =
      some [("top", 1)] :=
  start_rule_exactly_top F_all "S" (Item.span (.nt "X") 0 1) ["a"] rfl

/-- C4: an Upgrade rule (lhs label "X", rhs a single nonterminal Span) is
featurized to exactly `{"type:upgrade_t": 1.0}` when the rhs label is "T",
exactly `{"type:upgrade_d": 1.0}` when it is "D", and the empty map for any
other rhs label; exactly one of the two keys ever appears. -/
theorem upgrade_rule_exact (F : Featurizer) (s e : Nat) (l : String)
    (s' e' : Nat) (fsa : List String) :
    featurize_edge F ⟨Item.span (.nt "X") s e, [Item.span (.nt l) s' e']⟩ fsa =
      some (if l = "T" then [("type:upgrade_t", 1)]
            else if l = "D" then [("type:upgrade_d", 1)] else []) := by
  unfold featurize_edge
  simp only [List.length_cons, List.length_nil]
  norm_num
  simp only [Item.is_terminal, lhs_not_X, featurize_upgrade_rule]
  by_cases hT : l = "T"
  · simp [hT, dd_add, dd_set, dd_get]
  · by_cases hD : l = "D" <;> simp [hT, hD, dd_add, dd_set, dd_get]

/-- C1 failing input: for an Insertion rule featurized with both
sparseWordFeatures and wordClassFeatures enabled (target word "b" with
cluster id 0), the key `ins:class:0` is present but maps to 0.0, not 1.0:
line 175 reads the defaultdict entry without incrementing it, unlike the
Deletion case. -/
theorem ins_class_key_stays_zero :
    (featurize_edge F_all ⟨Item.span (.nt "I") 0 0, [Item.span (.term "b") 0 0]⟩
        ["a"]).isSome = true
    ∧ dd_mem ((featurize_edge F_all ⟨Item.span (.nt "I") 0 0,
        [Item.span (.term "b") 0 0]⟩ ["a"]).getD []) "ins:class:0"
    ∧ dd_get ((featurize_edge F_all ⟨Item.span (.nt "I") 0 0,
        [Item.span (.term "b") 0 0]⟩ ["a"]).getD []) "ins:class:0" = 0 := by
  decide

/-- C6: for a Translation rule (lhs label "T", unary Terminal rhs) with
forward probability `P(src,tgt)` and backward probability `P(tgt,src)`, the
features `ibm1:x2y:logprob`, `ibm1:y2x:logprob` and `ibm1:geometric:log`
carry exactly `log(p_fwd + 1e-10)`, `log(p_bwd + 1e-10)` and
`log(sqrt(p_fwd * p_bwd + 1e-10) + 1e-10)`, for any interpretation of the
`log`/`sqrt` routines. -/
theorem translation_ibm1_scores (F : Featurizer) (fsa : List String)
    (ls le rs re : Nat) (w : String) :
    ∃ m, featurize_edge F ⟨Item.span (.nt "T") ls le, [Item.span (.term w) rs re]⟩ fsa
        = some m
      ∧ dd_get m "ibm1:x2y:logprob" =
          F.np_log (F.ibm1_probs (get_source_word fsa ls le, w) + eps)
      ∧ dd_get m "ibm1:y2x:logprob" =
          F.np_log (F.ibm1_probs (w, get_source_word fsa ls le) + eps)
      ∧ dd_get m "ibm1:geometric:log" =
          F.np_log (F.np_sqrt (F.ibm1_probs (get_source_word fsa ls le, w) *
            F.ibm1_probs (w, get_source_word fsa ls le) + eps) + eps) := by
  unfold featurize_edge
  norm_num [Item.is_terminal]
  unfold featurize_terminal_rule
  norm_num [get_target_word]
  refine ⟨_, rfl, ?_, ?_, ?_⟩
  · have hE : ∀ i : Nat, ¬ ("ibm1:x2y:logprob" : String) = "trans:emb:dim-" ++ toString i :=
      fun i => lit_ne_key "trans:emb:dim-" (toString i) "ibm1:x2y:logprob" 1
        (by decide) (by decide) (by decide)
    have hC : ¬ ("ibm1:x2y:logprob" : String) =
        "trans:class:" ++ toString (F.embeddings_ch.cluster (get_source_word fsa ls le))
          ++ "/" ++ toString (F.embeddings_en.cluster w) :=
      lit_ne_pair_key _ _ _ _ 1 (by decide) (by decide) (by decide)
    have hL : ¬ ("ibm1:x2y:logprob" : String) =
        "trans:" ++ get_source_word fsa ls le ++ "/" ++ w :=
      lit_ne_pair_key _ _ _ _ 1 (by decide) (by decide) (by decide)
    rw [dd_get_ite_mm _ _ _ _ (dd_get_emb_fold_ne _ _ _ _ _ hE),
      dd_get_ite_mm _ _ _ _ (dd_get_add_ne _ _ _ _ hC),
      dd_get_ite_mm _ _ _ _ (dd_get_add_ne _ _ _ _ hL),
      dd_get_add_ne _ _ _ _ (by decide), dd_get_add_ne _ _ _ _ (by decide),
      dd_get_add, if_pos rfl, dd_get_add_ne _ _ _ _ (by decide),
      dd_get_add_ne _ _ _ _ (by decide), dd_get_add_ne _ _ _ _ (by decide),
      dd_get_nil, zero_add]
  · have hE : ∀ i : Nat, ¬ ("ibm1:y2x:logprob" : String) = "trans:emb:dim-" ++ toString i :=
      fun i => lit_ne_key "trans:emb:dim-" (toString i) "ibm1:y2x:logprob" 1
        (by decide) (by decide) (by decide)
    have hC : ¬ ("ibm1:y2x:logprob" : String) =
        "trans:class:" ++ toString (F.embeddings_ch.cluster (get_source_word fsa ls le))
          ++ "/" ++ toString (F.embeddings_en.cluster w) :=
      lit_ne_pair_key _ _ _ _ 1 (by decide) (by decide) (by decide)
    have hL : ¬ ("ibm1:y2x:logprob" : String) =
        "trans:" ++ get_source_word fsa ls le ++ "/" ++ w :=
      lit_ne_pair_key _ _ _ _ 1 (by decide) (by decide) (by decide)
    rw [dd_get_ite_mm _ _ _ _ (dd_get_emb_fold_ne _ _ _ _ _ hE),
      dd_get_ite_mm _ _ _ _ (dd_get_add_ne _ _ _ _ hC),
      dd_get_ite_mm _ _ _ _ (dd_get_add_ne _ _ _ _ hL),
      dd_get_add_ne _ _ _ _ (by decide),
      dd_get_add, if_pos rfl, dd_get_add_ne _ _ _ _ (by decide),
      dd_get_add_ne _ _ _ _ (by decide), dd_get_add_ne _ _ _ _ (by decide),
      dd_get_add_ne _ _ _ _ (by decide), dd_get_nil, zero_add]
  · have hE : ∀ i : Nat, ¬ ("ibm1:geometric:log" : String) = "trans:emb:dim-" ++ toString i :=
      fun i => lit_ne_key "trans:emb:dim-" (toString i) "ibm1:geometric:log" 1
        (by decide) (by decide) (by decide)
    have hC : ¬ ("ibm1:geometric:log" : String) =
        "trans:class:" ++ toString (F.embeddings_ch.cluster (get_source_word fsa ls le))
          ++ "/" ++ toString (F.embeddings_en.cluster w) :=
      lit_ne_pair_key _ _ _ _ 1 (by decide) (by decide) (by decide)
    have hL : ¬ ("ibm1:geometric:log" : String) =
        "trans:" ++ get_source_word fsa ls le ++ "/" ++ w :=
      lit_ne_pair_key _ _ _ _ 1 (by decide) (by decide) (by decide)
    rw [dd_get_ite_mm _ _ _ _ (dd_get_emb_fold_ne _ _ _ _ _ hE),
      dd_get_ite_mm _ _ _ _ (dd_get_add_ne _ _ _ _ hC),
      dd_get_ite_mm _ _ _ _ (dd_get_add_ne _ _ _ _ hL),
      dd_get_add, if_pos rfl, dd_get_add_ne _ _ _ _ (by decide),
      dd_get_add_ne _ _ _ _ (by decide), dd_get_add_ne _ _ _ _ (by decide),
      dd_get_add_ne _ _ _ _ (by decide), dd_get_add_ne _ _ _ _ (by decide),
      dd_get_nil, zero_add]

/-- C7: a Binary rule with lhs label "X" aborts (assertion failure, modelled
as `none`) precisely when its inside phrase — the words covered by the lhs
span — is empty; when the inside phrase is non-empty the featurization of
such a rule always returns normally. -/
theorem binary_x_empty_inside_aborts (F : Featurizer) (fsa : List String)
    (s e : Nat) (a : Sym) (sa ea : Nat) (b : Sym) (sb eb : Nat) :
    featurize_edge F
        ⟨Item.span (.nt "X") s e, [Item.span a sa ea, Item.span b sb eb]⟩ fsa = none
      ↔ get_phrase fsa s e = [] := by
  unfold featurize_edge
  norm_num
  unfold featurize_binary_rule
  norm_num
  simp only [show (("X" : String) = "D") = False from by decide, if_false]
  split
  · rename_i hlen
    rw [List.length_pos] at hlen
    simp [hlen]
  · rename_i hlen
    rw [Nat.not_lt, Nat.le_zero, List.length_eq_zero] at hlen
    simp [hlen]

/-- C5: for a Binary rule with lhs label "X" that featurizes successfully,
`binary:inverted = 1.0` is present iff the lhs span's start equals the
second rhs span's start, and `binary:monotone = 1.0` is present iff it does
not: the two orientation keys are mutually exclusive and exactly one fires. -/
theorem binary_x_orientation (F : Featurizer) (fsa : List String) (s e : Nat)
    (a : Sym) (sa ea : Nat) (b : Sym) (sb eb : Nat) (m : FeatureMap)
    (h : featurize_edge F
      ⟨Item.span (.nt "X") s e, [Item.span a sa ea, Item.span b sb eb]⟩ fsa = some m) :
    ((dd_mem m "binary:inverted" ↔ s = sb)
      ∧ (s = sb → dd_get m "binary:inverted" = 1))
    ∧ ((dd_mem m "binary:monotone" ↔ ¬ s = sb)
      ∧ (¬ s = sb → dd_get m "binary:monotone" = 1)) := by
  unfold featurize_edge at h
  norm_num at h
  unfold featurize_binary_rule at h
  norm_num at h
  simp only [show (("X" : String) = "D") = False from by decide, if_false] at h
  split at h
  case isFalse => exact absurd h (by simp)
  case isTrue hlen =>
  injection h with h
  subst h
  have pe_inv : ∀ x y : String,
      ¬ ("binary:inverted" : String) = "skip-gram:" ++ x ++ "/" ++ y :=
    fun x y => lit_ne_pair_key _ _ _ _ 1 (by decide) (by decide) (by decide)
  have pc_inv : ∀ x y : String,
      ¬ ("binary:inverted" : String) = "skip-gram:word-classes:" ++ x ++ "/" ++ y :=
    fun x y => lit_ne_pair_key _ _ _ _ 1 (by decide) (by decide) (by decide)
  have pi_inv : ∀ i : Nat, ¬ ("binary:inverted" : String) = "inside-phrase-" ++ toString i :=
    fun i => lit_ne_key "inside-phrase-" (toString i) _ 1 (by decide) (by decide) (by decide)
  have po_inv : ∀ i : Nat, ¬ ("binary:inverted" : String) = "outside-phrase-" ++ toString i :=
    fun i => lit_ne_key "outside-phrase-" (toString i) _ 1 (by decide) (by decide) (by decide)
  have pl_inv : ¬ ("binary:inverted" : String) = "source-span-len-" ++ toString (e - s) :=
    lit_ne_key "source-span-len-" (toString (e - s)) _ 1 (by decide) (by decide) (by decide)
  have pe_mon : ∀ x y : String,
      ¬ ("binary:monotone" : String) = "skip-gram:" ++ x ++ "/" ++ y :=
    fun x y => lit_ne_pair_key _ _ _ _ 1 (by decide) (by decide) (by decide)
  have pc_mon : ∀ x y : String,
      ¬ ("binary:monotone" : String) = "skip-gram:word-classes:" ++ x ++ "/" ++ y :=
    fun x y => lit_ne_pair_key _ _ _ _ 1 (by decide) (by decide) (by decide)
  have pi_mon : ∀ i : Nat, ¬ ("binary:monotone" : String) = "inside-phrase-" ++ toString i :=
    fun i => lit_ne_key "inside-phrase-" (toString i) _ 1 (by decide) (by decide) (by decide)
  have po_mon : ∀ i : Nat, ¬ ("binary:monotone" : String) = "outside-phrase-" ++ toString i :=
    fun i => lit_ne_key "outside-phrase-" (toString i) _ 1 (by decide) (by decide) (by decide)
  have pl_mon : ¬ ("binary:monotone" : String) = "source-span-len-" ++ toString (e - s) :=
    lit_ne_key "source-span-len-" (toString (e - s)) _ 1 (by decide) (by decide) (by decide)
  refine ⟨⟨?_, ?_⟩, ?_, ?_⟩
  · rw [dd_mem_add_ne _ _ _ _ pl_inv,
      dd_mem_ite_mm _ _ _ _ (dd_mem_skip_class_fold _ _ _ pc_inv),
      dd_mem_skip_fold _ _ _ pe_inv,
      dd_mem_ite_mm _ _ _ _ (dd_mem_emb_fold_ne _ _ _ _ _ po_inv),
      dd_mem_emb_fold_ne _ _ _ _ _ pi_inv]
    by_cases hor : s = sb
    · rw [if_pos hor, dd_mem_add]
      simp [hor]
    · rw [if_neg hor, dd_mem_add_ne _ _ _ _ (by decide),
        dd_mem_add_ne _ _ _ _ (by decide)]
      simp [hor]
  · intro hor
    rw [dd_get_add_ne _ _ _ _ pl_inv,
      dd_get_ite_mm _ _ _ _ (dd_get_skip_class_fold _ _ _ pc_inv),
      dd_get_skip_fold _ _ _ pe_inv,
      dd_get_ite_mm _ _ _ _ (dd_get_emb_fold_ne _ _ _ _ _ po_inv),
      dd_get_emb_fold_ne _ _ _ _ _ pi_inv, if_pos hor,
      dd_get_add, if_pos rfl, dd_get_add_ne _ _ _ _ (by decide),
      dd_get_nil, zero_add]
  · rw [dd_mem_add_ne _ _ _ _ pl_mon,
      dd_mem_ite_mm _ _ _ _ (dd_mem_skip_class_fold _ _ _ pc_mon),
      dd_mem_skip_fold _ _ _ pe_mon,
      dd_mem_ite_mm _ _ _ _ (dd_mem_emb_fold_ne _ _ _ _ _ po_mon),
      dd_mem_emb_fold_ne _ _ _ _ _ pi_mon]
    by_cases hor : s = sb
    · rw [if_pos hor, dd_mem_add_ne _ _ _ _ (by decide),
        dd_mem_add_ne _ _ _ _ (by decide)]
      simp [hor]
    · rw [if_neg hor, dd_mem_add]
      simp [hor]
  · intro hor
    rw [dd_get_add_ne _ _ _ _ pl_mon,
      dd_get_ite_mm _ _ _ _ (dd_get_skip_class_fold _ _ _ pc_mon),
      dd_get_skip_fold _ _ _ pe_mon,
      dd_get_ite_mm _ _ _ _ (dd_get_emb_fold_ne _ _ _ _ _ po_mon),
      dd_get_emb_fold_ne _ _ _ _ _ pi_mon, if_neg hor,
      dd_get_add, if_pos rfl, dd_get_add_ne _ _ _ _ (by decide),
      dd_get_nil, zero_add]

/-- Witness for C5: a concrete monotone Binary "X" rule (lhs start 0, second
rhs start 1). -/
theorem binary_x_orientation_witness :
    ((dd_mem binary_witness_map "binary:inverted" ↔ 0 = 1)
      ∧ (0 = 1 → dd_get binary_witness_map "binary:inverted" = 1))
    ∧ ((dd_mem binary_witness_map "binary:monotone" ↔ ¬ 0 = 1)
      ∧ (¬ 0 = 1 → dd_get binary_witness_map "binary:monotone" = 1)) :=
  binary_x_orientation F_all ["a", "b"] 0 2 (.nt "X") 0 1 (.nt "X") 1 2
    binary_witness_map rfl

/-- Unfolding equation for `batch_go` on a cons cell. -/
theorem batch_go_cons (F : Featurizer) (Dx : List Rule) (Dxy : Option Derivation)
    (src tg : List String) (rest : List BatchTuple) (fs : Features) :
    batch_go F ((Dx, Dxy, src, tg) :: rest) fs =
      match featurize_rules F (make_fsa src) Dx fs with
      | none => none
      | some fs1 =>
        match Dxy with
        | none => none
        | some d =>
          match d.rules.getLast? with
          | none => none
          | some r =>
            match featurize_edge F r (make_fsa src) with
            | none => none
            | some m => batch_go F rest (fs1 ++ [(r, m)]) := rfl

/-- The loop of `featurize_parse_trees_batch` never reads the target
sentence: two pointwise-related batches produce the same result from any
accumulator. -/
theorem batch_go_target_irrelevant (F : Featurizer) (b1 b2 : List BatchTuple)
    (h : List.Forall₂ (fun t1 t2 : BatchTuple =>
      t1.1 = t2.1 ∧ t1.2.1 = t2.2.1 ∧ t1.2.2.1 = t2.2.2.1) b1 b2) :
    ∀ fs : Features, batch_go F b1 fs = batch_go F b2 fs := by
  induction h with
  | nil => intro fs; rfl
  | cons hab htl ih =>
    intro fs
    rename_i a b l1 l2
    obtain ⟨Dx1, Dxy1, s1, tg1⟩ := a
    obtain ⟨Dx2, Dxy2, s2, tg2⟩ := b
    obtain ⟨hDx, hDxy, hsrc⟩ := hab
    simp only at hDx hDxy hsrc
    subst hDx hDxy hsrc
    rw [batch_go_cons, batch_go_cons]
    cases featurize_rules F (make_fsa s1) Dx1 fs with
    | none => rfl
    | some fs1 =>
      dsimp only
      cases Dxy1 with
      | none => rfl
      | some d =>
        dsimp only
        cases d.rules.getLast? with
        | none => rfl
        | some r =>
          dsimp only
          cases featurize_edge F r (make_fsa s1) with
          | none => rfl
          | some m => exact ih _

/-- C8: two batches that differ only in the target-sentence component of
their tuples (equal forests, best derivations and source sentences) yield
equal Features containers: the target sentence has no influence on any
produced feature map. -/
theorem batch_target_irrelevant (F : Featurizer) (b1 b2 : List BatchTuple)
    (h : List.Forall₂ (fun t1 t2 : BatchTuple =>
      t1.1 = t2.1 ∧ t1.2.1 = t2.2.1 ∧ t1.2.2.1 = t2.2.2.1) b1 b2) :
    featurize_parse_trees_batch F b1 = featurize_parse_trees_batch F b2 :=
  batch_go_target_irrelevant F b1 b2 h []

/-- Witness for C8: two concrete one-tuple batches differing only in the
target sentence. -/
theorem batch_target_irrelevant_witness :
    featurize_parse_trees_batch F_all
        [([], some ⟨[⟨Item.start "S", [Item.span (Sym.nt "X") 0 1]⟩]⟩, ["a"], ["b"])]
      = featurize_parse_trees_batch F_all
        [([], some ⟨[⟨Item.start "S", [Item.span (Sym.nt "X") 0 1]⟩]⟩, ["a"], ["c", "d"])] :=
  batch_target_irrelevant F_all _ _
    (List.forall₂_cons.mpr ⟨⟨rfl, rfl, rfl⟩, List.Forall₂.nil⟩)

/-- If the batch loop returns a value, every tuple passed a non-`none`
derivation with a non-empty rule list. -/
theorem batch_go_some_derivs (F : Featurizer) :
    ∀ (l : List BatchTuple) (fs : Features),
      (batch_go F l fs).isSome = true →
      ∀ t ∈ l, ∃ d : Derivation, t.2.1 = some d ∧ d.rules ≠ [] := by
  intro l
  induction l with
  | nil => intro fs _ t ht; exact absurd ht (List.not_mem_nil t)
  | cons a r ih =>
    intro fs h t ht
    obtain ⟨Dx, Dxy, src, tg⟩ := a
    rw [batch_go_cons] at h
    cases hfr : featurize_rules F (make_fsa src) Dx fs with
    | none => rw [hfr] at h; simp at h
    | some fs1 =>
      rw [hfr] at h
      dsimp only at h
      cases Dxy with
      | none => simp at h
      | some d =>
        dsimp only at h
        cases hgl : d.rules.getLast? with
        | none => rw [hgl] at h; simp at h
        | some r0 =>
          rw [hgl] at h
          dsimp only at h
          cases hfe : featurize_edge F r0 (make_fsa src) with
          | none => rw [hfe] at h; simp at h
          | some m =>
            rw [hfe] at h
            dsimp only at h
            rcases List.mem_cons.mp ht with rfl | ht'
            · refine ⟨d, rfl, fun hnil => ?_⟩
              rw [hnil] at hgl
              simp at hgl
            · exact ih _ h t ht'

/-- C10: `featurize_parse_trees` accepts a `None` best derivation and then
returns the container built from the forest's edges only, while
`featurize_parse_trees_batch` unconditionally extracts the last rule of each
tuple's best derivation, so a successful batch call requires every tuple to
carry a non-`None` derivation with at least one rule (a `None` derivation in
a batch tuple makes the call fail). -/
theorem none_derivation_handling :
    (∀ (F : Featurizer) (Dx : List Rule) (x : List String),
      featurize_parse_trees F Dx none x = featurize_rules F (make_fsa x) Dx [])
    ∧ (∀ (F : Featurizer) (batch : List BatchTuple),
      (featurize_parse_trees_batch F batch).isSome = true →
      ∀ t ∈ batch, ∃ d : Derivation, t.2.1 = some d ∧ d.rules ≠ []) := by
  constructor
  · intro F Dx x
    cases h : featurize_rules F (make_fsa x) Dx [] <;>
      simp [featurize_parse_trees, h]
  · intro F batch h
    exact batch_go_some_derivs F batch [] h

/-- Witness for C10: a concrete successful one-tuple batch, whose tuple
indeed carries a non-empty derivation. -/
theorem none_derivation_handling_witness :
    ∃ d : Derivation,
      (some (Derivation.mk [⟨Item.start "S", [Item.span (Sym.nt "X") 0 1]⟩])
        : Option Derivation) = some d ∧ d.rules ≠ [] :=
  none_derivation_handling.2 F_all
    [([], some ⟨[⟨Item.start "S", [Item.span (Sym.nt "X") 0 1]⟩]⟩, ["a"], ["b"])]
    rfl
    ([], some ⟨[⟨Item.start "S", [Item.span (Sym.nt "X") 0 1]⟩]⟩, ["a"], ["b"])
    (List.mem_singleton.mpr rfl)

/-- C9 failing input: with a 1-dimensional source-side table and a
2-dimensional target-side table, the insertion dense loop (line 180) ranges
over the source-side dimensionality, so `ins:emb:dim-0` is emitted but
`ins:emb:dim-1` is not, although the target-side table has dimension 2. -/
theorem ins_emb_ranges_over_source_dim :
    (featurize_edge F_dims ⟨Item.span (.nt "I") 0 0, [Item.span (.term "b") 0 0]⟩
        ["a"]).isSome = true
    ∧ dd_mem ((featurize_edge F_dims ⟨Item.span (.nt "I") 0 0,
        [Item.span (.term "b") 0 0]⟩ ["a"]).getD []) "ins:emb:dim-0"
    ∧ ¬ dd_mem ((featurize_edge F_dims ⟨Item.span (.nt "I") 0 0,
        [Item.span (.term "b") 0 0]⟩ ["a"]).getD []) "ins:emb:dim-1"
    ∧ F_dims.embeddings_en.dim = 2 := by
  decide

end Fz
